import Mathlib

/-!
Verification development for the cashflow-horizon normalizer
(`enforce_cashflow_horizon` in `backend/main.py`).

The function is a pure routine that takes an untrusted, JSON-like value
(arbitrary Python object produced by an LLM) and returns a canonical list of
six `{year, end_assets}` records for years 0, 5, 10, 15, 20, 25.

Modelling conventions (shallow embedding):
* Python values reaching the function are modelled by the inductive `PyVal`
  (None, int, float, str, list, dict).  Python floats are modelled as exact
  rationals `ℚ`; binary floating-point representation error is not modelled.
* `int(...)` / `float(...)` coercions are modelled by `pyInt` / `pyFloat`,
  returning `none` where Python raises (the source catches every exception and
  drops the record).  String coercion is modelled for plain decimal literals
  with optional sign; exotic forms (whitespace, underscores, exponents,
  `inf`/`nan`, a bare leading or trailing dot) are not modelled and parse to
  `none`.
* The source's int-keyed dicts (`point_map`, `annual`) are modelled as
  association lists `List (Int × ℚ)` with Python-dict semantics: `pmSet`
  replaces the value of an existing key in place and otherwise appends
  (insertion order preserved, as in a Python dict), `pmFind` looks a key up.
  Every key the source ever inserts lies in 0..25 (sanitization restricts
  years to that range, interpolation only writes strictly between known
  years and the final scan only writes years 0..25), so `sorted(d.keys())`
  is modelled by enumerating 0..25 in order and keeping the present keys
  (`keysOf`), and `min`/`max` over key lists by the fold-based
  `pyMinList`/`pyMaxList` — exactly the values Python computes.
* `round(x, 2)` is modelled as exact round-half-to-even at two decimals
  (`round2`), Python's rounding rule on exact values.
-/

/-- A Python value as it can reach `enforce_cashflow_horizon`. -/
inductive PyVal where
  | vNone : PyVal
  | vInt (n : Int) : PyVal
  | vFloat (q : ℚ) : PyVal
  | vStr (s : String) : PyVal
  | vList (xs : List PyVal) : PyVal
  | vDict (entries : List (String × PyVal)) : PyVal

/-- Python `int(float)`: truncation toward zero. -/
def pytrunc (q : ℚ) : Int := if 0 ≤ q then ⌊q⌋ else ⌈q⌉

/-- Python `int(str)` on plain optionally-signed decimal digit strings. -/
def pyIntOfString (s : String) : Option Int :=
  if s.startsWith "-" then ((s.drop 1).toNat?).map (fun n => -(n : Int))
  else if s.startsWith "+" then ((s.drop 1).toNat?).map (fun n => (n : Int))
  else (s.toNat?).map (fun n => (n : Int))

/-- `float(str)` without sign: `digits` or `digits.digits`. -/
def parseUnsignedQ (s : String) : Option ℚ :=
  match s.split (fun c => c == '.') with
  | [w] => (w.toNat?).map (fun n => (n : ℚ))
  | [w, f] =>
    match w.toNat?, f.toNat? with
    | some n, some fr => some ((n : ℚ) + (fr : ℚ) / ((10 : ℚ) ^ f.length))
    | _, _ => none
  | _ => none

/-- Python `float(str)` on plain optionally-signed decimal literals. -/
def pyFloatOfString (s : String) : Option ℚ :=
  if s.startsWith "-" then (parseUnsignedQ (s.drop 1)).map (fun q => -q)
  else if s.startsWith "+" then parseUnsignedQ (s.drop 1)
  else parseUnsignedQ s

/-- Python `int(x)`: succeeds on ints, floats (truncating toward zero) and
integer literal strings; raises (here: `none`) on anything else. -/
def pyInt : PyVal → Option Int
  | .vInt n => some n
  | .vFloat q => some (pytrunc q)
  | .vStr s => pyIntOfString s
  | _ => none

/-- Python `float(x)`: succeeds on ints, floats and decimal literal strings;
raises (here: `none`) on anything else. -/
def pyFloat : PyVal → Option ℚ
  | .vInt n => some ((n : ℚ))
  | .vFloat q => some q
  | .vStr s => pyFloatOfString s
  | _ => none

/-- Python `pt.get(key)` on a dict's entry list: first entry with the key,
`None` when absent. -/
def pyDictGet (entries : List (String × PyVal)) (key : String) : PyVal :=
  match entries.find? (fun e => e.1 == key) with
  | some e => e.2
  | none => .vNone

/-- The sanitization loop body of the source: coerce `year` to int and
`end_assets` to float (any exception drops the record), keep the record only
if the year lies in 0..25, clamping negative values to 0. -/
def sanitizeRecord : PyVal → Option (Int × ℚ)
  | .vDict entries =>
    match pyInt (pyDictGet entries "year"), pyFloat (pyDictGet entries "end_assets") with
    | some y, some v => if 0 ≤ y ∧ y ≤ 25 then some (y, max 0 v) else none
    | _, _ => none
  | _ => none

/-- `d[k]` lookup on an int-keyed Python dict modelled as an entry list. -/
def pmFind : List (Int × ℚ) → Int → Option ℚ
  | [], _ => none
  | p :: rest, k => if p.1 = k then some p.2 else pmFind rest k

/-- `d[y] = v` on an int-keyed Python dict: replace the entry of an existing
key in place, otherwise append (insertion order preserved). -/
def pmSet : List (Int × ℚ) → Int → ℚ → List (Int × ℚ)
  | [], y, v => [(y, v)]
  | p :: rest, y, v => if p.1 = y then (y, v) :: rest else p :: pmSet rest y v

/-- `point_map`: deduplicate the sanitized points by year, last write wins. -/
def rawPointMap (raw : List (Int × ℚ)) : List (Int × ℚ) :=
  raw.foldl (fun m p => pmSet m p.1 p.2) []

/-- `sorted(d.keys())` for the source's int-keyed dicts: every key ever
inserted lies in 0..25, so enumerating 0..25 in order lists the keys in
ascending order. -/
def keysOf (m : List (Int × ℚ)) : List Int :=
  ((List.range 26).filter (fun n => (pmFind m ((n : Nat) : Int)).isSome)).map
    (fun n => ((n : Nat) : Int))

/-- Python `min(l, default=None)`. -/
def pyMinList (l : List Int) : Option Int :=
  l.foldl (fun acc k => match acc with | none => some k | some m => some (min m k)) none

/-- Python `max(l, default=None)`. -/
def pyMaxList (l : List Int) : Option Int :=
  l.foldl (fun acc k => match acc with | none => some k | some m => some (max m k)) none

/-- The year-0 anchor step: if year 0 is absent and any sanitized point
exists, copy the value at the earliest present year to year 0.
(`point_map[earliest_year]` is always present there; `getD 0` is the model's
total read of it.) -/
def anchorPointMap (raw : List (Int × ℚ)) (pm : List (Int × ℚ)) : List (Int × ℚ) :=
  if (pmFind pm 0).isNone ∧ raw ≠ [] then
    match pyMinList (keysOf pm) with
    | some e => pmSet pm 0 ((pmFind pm e).getD 0)
    | none => pm
  else pm

/-- The whole point-collection pipeline of the source applied to a list
input: sanitize each record, deduplicate by year, anchor year 0. -/
def normalizePoints (pts : List PyVal) : List (Int × ℚ) :=
  anchorPointMap (pts.filterMap sanitizeRecord) (rawPointMap (pts.filterMap sanitizeRecord))

/-- Dense-interpolation inner loop of the source: for a gap of more than one
year between consecutive known years, write the linear interpolant (clamped
at 0) at every interior year.  `List.range' 1 (span.toNat - 1)` is Python's
`range(1, span)`. -/
def interpSeg (annual : List (Int × ℚ)) (prev_y : Int) (prev_v : ℚ) (y : Int) (cur_v : ℚ) :
    List (Int × ℚ) :=
  let span := y - prev_y
  if 1 < span then
    (List.range' 1 (span.toNat - 1)).foldl
      (fun (a : List (Int × ℚ)) (step : Nat) =>
        pmSet a (prev_y + (step : Int))
          (max 0 (prev_v + (cur_v - prev_v) * ((step : ℚ) / ((span : Int) : ℚ)))))
      annual
  else annual

/-- The walk over `years_sorted` after the first element: set each known
year's value, then interpolate the gap from the previous known year. -/
def buildAnnualGo (pm : List (Int × ℚ)) (annual : List (Int × ℚ)) (prev_y : Int) :
    List Int → List (Int × ℚ)
  | [] => annual
  | y :: rest =>
    buildAnnualGo pm
      (interpSeg (pmSet annual y ((pmFind pm y).getD 0)) prev_y ((pmFind pm prev_y).getD 0) y
        ((pmFind pm y).getD 0))
      y rest

/-- The dense-interpolation phase: walk the sorted known years, setting each
known value (`annual[y] = point_map[y]`, total via `getD 0`: every walked
year is a key of `point_map`) and linearly interpolating every gap. -/
def buildAnnual (pm : List (Int × ℚ)) : List Int → List (Int × ℚ)
  | [] => []
  | y :: rest => buildAnnualGo pm (pmSet [] y ((pmFind pm y).getD 0)) y rest

/-- Python truthiness of `prev_known or next_known or 0`: `None` and the int
`0` are falsy (`next_known or 0` has the same value as `next_known.getD 0`). -/
def pyOrKey (a b : Option Int) : Int :=
  match a with
  | some p => if p = 0 then b.getD 0 else p
  | none => b.getD 0

/-- The estimate the depletion scan computes for a year with no known or
interpolated value: linear interpolation between the nearest known annual
neighbours, else a flat copy via `annual.get(prev_known or next_known or 0, 0.0)`. -/
def scanVal (annual : List (Int × ℚ)) (y : Int) : ℚ :=
  let ks := keysOf annual
  let prev_known := pyMaxList (ks.filter (fun k => decide (k < y)))
  let next_known := pyMinList (ks.filter (fun k => decide (y < k)))
  match prev_known, next_known with
  | some p, some n =>
    (pmFind annual p).getD 0 +
      ((pmFind annual n).getD 0 - (pmFind annual p).getD 0) *
        (((y - p : Int) : ℚ) / (((n - p : Int) : ℚ)))
  | _, _ => (pmFind annual (pyOrKey prev_known next_known)).getD 0

/-- First half of a depletion-scan step: ensure year `y` has a value,
clamping a freshly estimated one at 0 (`annual[y] = max(0.0, val)`). -/
def scanFill (annual : List (Int × ℚ)) (y : Int) : List (Int × ℚ) :=
  match pmFind annual y with
  | some _ => annual
  | none => pmSet annual y (max 0 (scanVal annual y))

/-- One iteration of the source's `for y in range(0, 26)` depletion scan:
fill the year, then clamp to 0 and set the depleted flag once a value is
`<= 0`, forcing every later year to 0. -/
def scanStep (st : List (Int × ℚ) × Bool) (yn : Nat) : List (Int × ℚ) × Bool :=
  let y : Int := (yn : Int)
  let annual1 := scanFill st.1 y
  if ¬ st.2 ∧ (pmFind annual1 y).getD 0 ≤ 0 then (pmSet annual1 y 0, true)
  else if st.2 then (pmSet annual1 y 0, true)
  else (annual1, st.2)

/-- The depletion scan after `n` of its 26 iterations. -/
def scanS (a0 : List (Int × ℚ)) (n : Nat) : List (Int × ℚ) × Bool :=
  (List.range n).foldl scanStep (a0, false)

/-- The dense annual series after interpolation and the full depletion scan. -/
def scannedAnnual (pm : List (Int × ℚ)) (ys : List Int) : List (Int × ℚ) :=
  (scanS (buildAnnual pm ys) 26).1

/-- Exact round-half-to-even to an integer. -/
def roundHalfEven (q : ℚ) : Int :=
  if q - ⌊q⌋ < 1 / 2 then ⌊q⌋
  else if 1 / 2 < q - ⌊q⌋ then ⌊q⌋ + 1
  else if ⌊q⌋ % 2 = 0 then ⌊q⌋ else ⌊q⌋ + 1

/-- Python `round(x, 2)` on exact values: round half to even at 2 decimals. -/
def round2 (q : ℚ) : ℚ := ((roundHalfEven (q * 100) : Int) : ℚ) / 100

/-- The six required checkpoint years. -/
def EXPECTED_CASHFLOW_YEARS : List Int := [0, 5, 10, 15, 20, 25]

/-- The all-zero fallback series returned for non-list or empty input. -/
def fallbackSeries : List (Int × ℚ) :=
  EXPECTED_CASHFLOW_YEARS.map (fun y => (y, (0 : ℚ)))

/-- `enforce_cashflow_horizon` from `backend/main.py`: a record
`{"year": y, "end_assets": v}` of the output is modelled as the pair `(y, v)`. -/
def enforce_cashflow_horizon : PyVal → List (Int × ℚ)
  | .vList pts =>
    if keysOf (normalizePoints pts) = [] then fallbackSeries
    else
      EXPECTED_CASHFLOW_YEARS.map
        (fun y =>
          (y,
            round2
              ((pmFind (scannedAnnual (normalizePoints pts) (keysOf (normalizePoints pts))) y).getD
                0)))
  | _ => fallbackSeries

/-- The pre-rounding value the source samples at each year (0 in the
fallback branches, `annual.get(y, 0.0)` otherwise). -/
def normalizeAnnual : PyVal → Int → ℚ
  | .vList pts => fun y =>
    if keysOf (normalizePoints pts) = [] then 0
    else (pmFind (scannedAnnual (normalizePoints pts) (keysOf (normalizePoints pts))) y).getD 0
  | _ => fun _ => 0

/-- Convenience constructor for a well-formed input record. -/
def mkPt (y : Int) (v : ℚ) : PyVal :=
  .vDict [("year", .vInt y), ("end_assets", .vFloat v)]

/-- "Once an output checkpoint value is 0, every later one is 0" as a
predicate on an output list. -/
def afterZeroAllZero (l : List (Int × ℚ)) : Prop :=
  ∀ i j : Fin l.length, i ≤ j → (l.get i).2 = 0 → (l.get j).2 = 0

/-! ### Basic association-list (dict) lemmas -/

theorem pmFind_pmSet_self (m : List (Int × ℚ)) (y : Int) (v : ℚ) :
    pmFind (pmSet m y v) y = some v := by
  induction m with
  | nil => simp [pmSet, pmFind]
  | cons p rest ih =>
    by_cases h : p.1 = y
    · simp [pmSet, pmFind, h]
    · simp [pmSet, pmFind, h, ih]

theorem pmFind_pmSet_ne (m : List (Int × ℚ)) (y : Int) (v : ℚ) (k : Int) (h : k ≠ y) :
    pmFind (pmSet m y v) k = pmFind m k := by
  have hyk : ¬ (y = k) := fun e => h e.symm
  induction m with
  | nil => simp [pmSet, pmFind, hyk]
  | cons p rest ih =>
    by_cases hp : p.1 = y
    · have hpk : ¬ (p.1 = k) := by rw [hp]; exact hyk
      simp [pmSet, pmFind, hp, hyk, hpk]
    · by_cases hk : p.1 = k <;> simp [pmSet, pmFind, hp, hk, ih, h]

theorem mem_pmSet (m : List (Int × ℚ)) (y : Int) (v : ℚ) (p : Int × ℚ) :
    p ∈ pmSet m y v → p = (y, v) ∨ p ∈ m := by
  induction m with
  | nil => simp [pmSet]
  | cons q rest ih =>
    by_cases h : q.1 = y
    · simp only [pmSet, if_pos h, List.mem_cons]
      rintro (h1 | h2)
      · exact Or.inl h1
      · exact Or.inr (Or.inr h2)
    · simp only [pmSet, if_neg h, List.mem_cons]
      rintro (h1 | h2)
      · exact Or.inr (Or.inl h1)
      · rcases ih h2 with h3 | h4
        · exact Or.inl h3
        · exact Or.inr (Or.inr h4)

theorem pmFind_mem (m : List (Int × ℚ)) (k : Int) (w : ℚ) (h : pmFind m k = some w) :
    (k, w) ∈ m := by
  induction m with
  | nil => simp [pmFind] at h
  | cons p rest ih =>
    by_cases hp : p.1 = k
    · simp only [pmFind, if_pos hp] at h
      obtain rfl : p.2 = w := by injection h
      subst hp
      rw [Prod.mk.eta]
      exact List.mem_cons_self _ _
    · simp only [pmFind, if_neg hp] at h
      exact List.mem_cons_of_mem _ (ih h)

theorem foldl_pmSet_prop (P : Int × ℚ → Prop) (l : List (Int × ℚ)) :
    ∀ m : List (Int × ℚ), (∀ p ∈ l, P p) → (∀ p ∈ m, P p) →
      ∀ p ∈ l.foldl (fun m p => pmSet m p.1 p.2) m, P p := by
  induction l with
  | nil => intro m _ hm; simpa using hm
  | cons q rest ih =>
    intro m hl hm p hp
    refine ih _ (fun r hr => hl r (List.mem_cons_of_mem _ hr)) ?_ p hp
    intro r hr
    rcases mem_pmSet _ _ _ _ hr with rfl | h2
    · exact hl q (List.mem_cons_self _ _)
    · exact hm r h2

theorem rawPointMap_prop (P : Int × ℚ → Prop) (raw : List (Int × ℚ))
    (hl : ∀ p ∈ raw, P p) : ∀ p ∈ rawPointMap raw, P p :=
  foldl_pmSet_prop P raw [] hl (by simp)

theorem sanitizeRecord_some (pt : PyVal) (p : Int × ℚ) (h : sanitizeRecord pt = some p) :
    (0 ≤ p.1 ∧ p.1 ≤ 25) ∧ 0 ≤ p.2 := by
  cases pt with
  | vDict entries =>
    rcases hy : pyInt (pyDictGet entries "year") with _ | y <;>
      rcases hv : pyFloat (pyDictGet entries "end_assets") with _ | v <;>
      simp only [sanitizeRecord, hy, hv] at h
    · exact Option.noConfusion h
    · exact Option.noConfusion h
    · exact Option.noConfusion h
    split at h
    · rename_i hcond
      injection h with h2
      subst h2
      exact ⟨hcond, le_max_left 0 _⟩
    · exact Option.noConfusion h
  | vNone => exact absurd h (by simp [sanitizeRecord])
  | vInt n => exact absurd h (by simp [sanitizeRecord])
  | vFloat q => exact absurd h (by simp [sanitizeRecord])
  | vStr s => exact absurd h (by simp [sanitizeRecord])
  | vList xs => exact absurd h (by simp [sanitizeRecord])

/-- Every entry of the deduplicated, anchored point map has a year in 0..25
and a non-negative value. -/
theorem normalizePoints_prop (pts : List PyVal) :
    ∀ p ∈ normalizePoints pts, (0 ≤ p.1 ∧ p.1 ≤ 25) ∧ 0 ≤ p.2 := by
  have hraw : ∀ p ∈ rawPointMap (pts.filterMap sanitizeRecord),
      (0 ≤ p.1 ∧ p.1 ≤ 25) ∧ 0 ≤ p.2 := by
    refine rawPointMap_prop _ _ ?_
    intro p hp
    rcases List.mem_filterMap.mp hp with ⟨a, _, ha2⟩
    exact sanitizeRecord_some a p ha2
  intro p hp
  rw [normalizePoints, anchorPointMap] at hp
  split at hp
  · split at hp
    · rename_i e _
      rcases mem_pmSet _ _ _ _ hp with rfl | h2
      · refine ⟨⟨le_refl 0, by norm_num⟩, ?_⟩
        rcases hf : pmFind (rawPointMap (pts.filterMap sanitizeRecord)) e with _ | w
        · simp
        · simpa using (hraw _ (pmFind_mem _ _ _ hf)).2
      · exact hraw p h2
    · exact hraw p hp
  · exact hraw p hp

/-! ### Non-negativity through the pipeline -/

/-- All values of a point/annual map are non-negative. -/
def pmNN (m : List (Int × ℚ)) : Prop := ∀ p ∈ m, 0 ≤ p.2

theorem pmNN_pmSet (m : List (Int × ℚ)) (y : Int) (v : ℚ) (hm : pmNN m) (hv : 0 ≤ v) :
    pmNN (pmSet m y v) := by
  intro p hp
  rcases mem_pmSet _ _ _ _ hp with rfl | h2
  · exact hv
  · exact hm p h2

theorem pmNN_find (m : List (Int × ℚ)) (k : Int) (w : ℚ) (hm : pmNN m)
    (hf : pmFind m k = some w) : 0 ≤ w :=
  hm _ (pmFind_mem _ _ _ hf)

theorem pmNN_getD (m : List (Int × ℚ)) (k : Int) (hm : pmNN m) : 0 ≤ (pmFind m k).getD 0 := by
  rcases hf : pmFind m k with _ | w
  · simp
  · simpa using pmNN_find m k w hm hf

theorem normalizePoints_NN (pts : List PyVal) : pmNN (normalizePoints pts) :=
  fun p hp => (normalizePoints_prop pts p hp).2

theorem interpSeg_NN (a : List (Int × ℚ)) (py : Int) (pv : ℚ) (y : Int) (cv : ℚ)
    (h : pmNN a) : pmNN (interpSeg a py pv y cv) := by
  rw [interpSeg]
  split
  · have : ∀ (l : List ℕ) (a : List (Int × ℚ)), pmNN a →
        pmNN (List.foldl (fun (a : List (Int × ℚ)) (step : ℕ) =>
          pmSet a (py + (step : Int))
            (max 0 (pv + (cv - pv) * ((step : ℚ) / (((y - py : Int)) : ℚ))))) a l) := by
      intro l
      induction l with
      | nil => intro a ha; exact ha
      | cons s rest ih =>
        intro a ha
        exact ih _ (pmNN_pmSet _ _ _ ha (le_max_left 0 _))
    exact this _ a h
  · exact h

theorem buildAnnualGo_NN (pm : List (Int × ℚ)) (hpm : pmNN pm) :
    ∀ (ys : List Int) (a : List (Int × ℚ)) (prev : Int), pmNN a →
      pmNN (buildAnnualGo pm a prev ys) := by
  intro ys
  induction ys with
  | nil => intro a prev ha; exact ha
  | cons y rest ih =>
    intro a prev ha
    rw [buildAnnualGo]
    exact ih _ _ (interpSeg_NN _ _ _ _ _ (pmNN_pmSet _ _ _ ha (pmNN_getD pm y hpm)))

theorem buildAnnual_NN (pm : List (Int × ℚ)) (ys : List Int) (hpm : pmNN pm) :
    pmNN (buildAnnual pm ys) := by
  cases ys with
  | nil => intro p hp; simp [buildAnnual] at hp
  | cons y rest =>
    rw [buildAnnual]
    exact buildAnnualGo_NN pm hpm rest _ y (pmNN_pmSet _ _ _ (by intro p hp; simp at hp) (pmNN_getD pm y hpm))

theorem scanFill_NN (a : List (Int × ℚ)) (y : Int) (h : pmNN a) : pmNN (scanFill a y) := by
  rw [scanFill]
  split
  · exact h
  · exact pmNN_pmSet _ _ _ h (le_max_left 0 _)

theorem scanStep_NN (st : List (Int × ℚ) × Bool) (yn : Nat) (h : pmNN st.1) :
    pmNN (scanStep st yn).1 := by
  rw [scanStep]
  split
  · exact pmNN_pmSet _ _ _ (scanFill_NN _ _ h) (le_refl 0)
  split
  · exact pmNN_pmSet _ _ _ (scanFill_NN _ _ h) (le_refl 0)
  · exact scanFill_NN _ _ h

theorem scanS_succ (a0 : List (Int × ℚ)) (n : Nat) :
    scanS a0 (n + 1) = scanStep (scanS a0 n) n := by
  rw [scanS, scanS, List.range_succ, List.foldl_append, List.foldl_cons, List.foldl_nil]

theorem scanS_NN (a0 : List (Int × ℚ)) (h : pmNN a0) : ∀ n, pmNN (scanS a0 n).1 := by
  intro n
  induction n with
  | zero => exact h
  | succ n ih =>
    rw [scanS_succ]
    exact scanStep_NN _ _ ih

/-! ### Rounding lemmas -/

theorem round2_zero : round2 0 = 0 := by norm_num [round2, roundHalfEven]

theorem round2_nonneg (q : ℚ) (h : 0 ≤ q) : 0 ≤ round2 q := by
  have h100 : (0 : ℚ) ≤ q * 100 := by positivity
  have hf : 0 ≤ ⌊q * 100⌋ := Int.floor_nonneg.mpr h100
  have hr : 0 ≤ roundHalfEven (q * 100) := by
    rw [roundHalfEven]
    split_ifs <;> omega
  rw [round2]
  refine div_nonneg ?_ (by norm_num)
  exact_mod_cast hr

/-! ### The output as a map over the checkpoint years -/

theorem normalizeAnnual_nonneg (x : PyVal) (y : Int) : 0 ≤ normalizeAnnual x y := by
  cases x with
  | vList pts =>
    simp only [normalizeAnnual]
    split_ifs
    · exact le_refl 0
    · exact pmNN_getD _ _
        (scanS_NN _ (buildAnnual_NN _ _ (normalizePoints_NN pts)) 26)
  | vNone => exact le_refl 0
  | vInt n => exact le_refl 0
  | vFloat q => exact le_refl 0
  | vStr s => exact le_refl 0
  | vDict entries => exact le_refl 0

theorem enforce_eq_map (x : PyVal) :
    enforce_cashflow_horizon x =
      EXPECTED_CASHFLOW_YEARS.map (fun y => (y, round2 (normalizeAnnual x y))) := by
  cases x with
  | vList pts =>
    simp only [enforce_cashflow_horizon, normalizeAnnual]
    split_ifs with h
    · simp [fallbackSeries, round2_zero]
    · rfl
  | vNone => simp [enforce_cashflow_horizon, normalizeAnnual, fallbackSeries, round2_zero]
  | vInt n => simp [enforce_cashflow_horizon, normalizeAnnual, fallbackSeries, round2_zero]
  | vFloat q => simp [enforce_cashflow_horizon, normalizeAnnual, fallbackSeries, round2_zero]
  | vStr s => simp [enforce_cashflow_horizon, normalizeAnnual, fallbackSeries, round2_zero]
  | vDict entries => simp [enforce_cashflow_horizon, normalizeAnnual, fallbackSeries, round2_zero]

/-- C1: for every input value (well-formed list, list with malformed records,
empty list, or a non-list such as None), the output of
`enforce_cashflow_horizon` is a list of exactly 6 records whose years are
exactly [0, 5, 10, 15, 20, 25] in that ascending order, and every
`end_assets` in the output is ≥ 0. -/
theorem enforce_output_shape_nonneg (x : PyVal) :
    (enforce_cashflow_horizon x).map Prod.fst = EXPECTED_CASHFLOW_YEARS ∧
    (enforce_cashflow_horizon x).length = 6 ∧
    ∀ p ∈ enforce_cashflow_horizon x, 0 ≤ p.2 := by
  rw [enforce_eq_map]
  refine ⟨?_, ?_, ?_⟩
  · have hcomp : (Prod.fst ∘ fun y : Int => (y, round2 (normalizeAnnual x y))) = id := rfl
    rw [List.map_map, hcomp, List.map_id]
  · simp [EXPECTED_CASHFLOW_YEARS]
  · intro p hp
    rcases List.mem_map.mp hp with ⟨y, _, rfl⟩
    exact round2_nonneg _ (normalizeAnnual_nonneg x y)

/-! ### The output depends on the input list only through sanitization -/

theorem enforce_filterMap_congr (pts1 pts2 : List PyVal)
    (h : pts1.filterMap sanitizeRecord = pts2.filterMap sanitizeRecord) :
    enforce_cashflow_horizon (.vList pts1) = enforce_cashflow_horizon (.vList pts2) := by
  simp only [enforce_cashflow_horizon, normalizePoints, h]

/-- C2: `enforce_cashflow_horizon` never raises for structurally wrong input:
for every non-list input, for every list whose records are all invalid, and
for the empty list, it returns (totally) the six checkpoint years all with
`end_assets = 0.0`. -/
theorem enforce_fallback_on_invalid (x : PyVal)
    (h : (∀ l, x ≠ PyVal.vList l) ∨
      (∃ l, x = PyVal.vList l ∧ ∀ pt ∈ l, sanitizeRecord pt = none)) :
    enforce_cashflow_horizon x = fallbackSeries := by
  rcases h with h | ⟨l, rfl, hall⟩
  · cases x with
    | vList xs => exact absurd rfl (h xs)
    | vNone => rfl
    | vInt n => rfl
    | vFloat q => rfl
    | vStr s => rfl
    | vDict entries => rfl
  · have hnil : l.filterMap sanitizeRecord = [] := List.filterMap_eq_nil_iff.mpr hall
    simp only [enforce_cashflow_horizon, normalizePoints, hnil]
    rfl

/-- Witness for C2 at the concrete input `"not a list"`. -/
theorem enforce_fallback_on_invalid_witness :
    (∀ l, PyVal.vStr "not a list" ≠ PyVal.vList l) ∧
    enforce_cashflow_horizon (PyVal.vStr "not a list") = fallbackSeries :=
  ⟨fun _ h => PyVal.noConfusion h,
    enforce_fallback_on_invalid _ (Or.inl (fun _ h => PyVal.noConfusion h))⟩

/-- A record whose coerced year lies outside 0..25 is dropped by sanitization. -/
theorem sanitizeRecord_year_out (entries : List (String × PyVal)) (yv : Int)
    (hy : pyInt (pyDictGet entries "year") = some yv) (hout : yv < 0 ∨ 25 < yv) :
    sanitizeRecord (.vDict entries) = none := by
  simp only [sanitizeRecord, hy]
  rcases hv : pyFloat (pyDictGet entries "end_assets") with _ | v <;> simp only [hv]
  rw [if_neg (by omega)]

/-- C9: a record whose (coerced) year lies outside [0, 25] is dropped and
contributes nothing to the output — removing it from anywhere in the input
leaves the output unchanged (in particular it is never clipped to a
boundary year). -/
theorem out_of_range_year_dropped (l1 l2 : List PyVal) (entries : List (String × PyVal))
    (yv : Int) (hy : pyInt (pyDictGet entries "year") = some yv) (hout : yv < 0 ∨ 25 < yv) :
    enforce_cashflow_horizon (.vList (l1 ++ PyVal.vDict entries :: l2)) =
      enforce_cashflow_horizon (.vList (l1 ++ l2)) := by
  apply enforce_filterMap_congr
  rw [List.filterMap_append, List.filterMap_append,
    List.filterMap_cons_none (sanitizeRecord_year_out entries yv hy hout)]

/-- Witness for C9: a record at year 30 inserted after a year-0 record
changes nothing. -/
theorem out_of_range_year_dropped_witness :
    pyInt (pyDictGet [("year", PyVal.vInt 30), ("end_assets", PyVal.vFloat 5)] "year") =
      some 30 ∧
    ((30 : Int) < 0 ∨ 25 < (30 : Int)) ∧
    enforce_cashflow_horizon
        (.vList ([mkPt 0 10] ++ PyVal.vDict [("year", PyVal.vInt 30), ("end_assets", PyVal.vFloat 5)] :: [])) =
      enforce_cashflow_horizon (.vList ([mkPt 0 10] ++ [])) :=
  ⟨rfl, by norm_num,
    out_of_range_year_dropped [mkPt 0 10] [] _ 30 rfl (by norm_num)⟩

/-- C4 (amended part): records that sanitization drops — coercion failures
and out-of-range years such as year 30 — are ignored entirely: appending any
number of them leaves the output unchanged. -/
theorem out_of_range_records_ignored (l extras : List PyVal)
    (h : ∀ pt ∈ extras, sanitizeRecord pt = none) :
    enforce_cashflow_horizon (.vList (l ++ extras)) = enforce_cashflow_horizon (.vList l) := by
  apply enforce_filterMap_congr
  rw [List.filterMap_append, List.filterMap_eq_nil_iff.mpr h, List.append_nil]

/-- Witness for C4's amended statement: appending a year-30 record and a
non-dict record changes nothing. -/
theorem out_of_range_records_ignored_witness :
    (∀ pt ∈ [PyVal.vDict [("year", PyVal.vInt 30), ("end_assets", PyVal.vFloat 1)],
        PyVal.vStr "junk"], sanitizeRecord pt = none) ∧
    enforce_cashflow_horizon
        (.vList ([mkPt 0 10, mkPt 5 8] ++
          [PyVal.vDict [("year", PyVal.vInt 30), ("end_assets", PyVal.vFloat 1)],
            PyVal.vStr "junk"])) =
      enforce_cashflow_horizon (.vList [mkPt 0 10, mkPt 5 8]) := by
  have hx : ∀ pt ∈ [PyVal.vDict [("year", PyVal.vInt 30), ("end_assets", PyVal.vFloat 1)],
      PyVal.vStr "junk"], sanitizeRecord pt = none := by
    intro pt hpt
    rcases hpt with _ | ⟨_, h2⟩
    · rfl
    · rcases h2 with _ | ⟨_, h3⟩
      · rfl
      · cases h3
  exact ⟨hx, out_of_range_records_ignored _ _ hx⟩

/-- C10: year coercion truncates toward zero before the range check: a
record with float year `v` (and float `end_assets` `a`) is kept at year
`pytrunc v` exactly when the truncation lies in [0, 25], which happens
exactly when `-1 < v < 26`. -/
theorem year_truncation_range (v a : ℚ) :
    sanitizeRecord (.vDict [("year", PyVal.vFloat v), ("end_assets", PyVal.vFloat a)]) =
      (if 0 ≤ pytrunc v ∧ pytrunc v ≤ 25 then some (pytrunc v, max 0 a) else none) ∧
    ((0 ≤ pytrunc v ∧ pytrunc v ≤ 25) ↔ (-1 < v ∧ v < 26)) := by
  constructor
  · rfl
  · rw [pytrunc]
    rcases le_or_lt 0 v with hv | hv
    · rw [if_pos hv]
      constructor
      · rintro ⟨_, h2⟩
        refine ⟨by linarith, ?_⟩
        calc v < (⌊v⌋ : ℚ) + 1 := Int.lt_floor_add_one v
        _ ≤ 26 := by exact_mod_cast by omega
      · rintro ⟨_, h2⟩
        refine ⟨Int.floor_nonneg.mpr hv, ?_⟩
        have : ⌊v⌋ < 26 := Int.floor_lt.mpr (by exact_mod_cast h2)
        omega
    · rw [if_neg (not_le.mpr hv)]
      constructor
      · rintro ⟨h1, _⟩
        refine ⟨?_, by linarith⟩
        have : (-1 : Int) < ⌈v⌉ := by omega
        exact_mod_cast Int.lt_ceil.mp this
      · rintro ⟨h1, _⟩
        have h2 : (-1 : Int) < ⌈v⌉ := Int.lt_ceil.mpr (by exact_mod_cast h1)
        have h3 : ⌈v⌉ ≤ 0 := Int.ceil_le.mpr (by exact_mod_cast hv.le)
        omega


/-! ### Locality and invariants of the depletion scan -/

theorem scanFill_find_ne (a : List (Int × ℚ)) (y k : Int) (h : k ≠ y) :
    pmFind (scanFill a y) k = pmFind a k := by
  rw [scanFill]
  split
  · rfl
  · exact pmFind_pmSet_ne _ _ _ _ h

theorem scanFill_of_some (a : List (Int × ℚ)) (y : Int) (w : ℚ) (h : pmFind a y = some w) :
    scanFill a y = a := by
  rw [scanFill, h]

theorem scanStep_find_ne (st : List (Int × ℚ) × Bool) (yn : Nat) (k : Int)
    (h : k ≠ (yn : Int)) : pmFind (scanStep st yn).1 k = pmFind st.1 k := by
  simp only [scanStep]
  split
  · exact (pmFind_pmSet_ne _ _ _ _ h).trans (scanFill_find_ne _ _ _ h)
  split
  · exact (pmFind_pmSet_ne _ _ _ _ h).trans (scanFill_find_ne _ _ _ h)
  · exact scanFill_find_ne _ _ _ h

theorem scanFill_find_self (a : List (Int × ℚ)) (y : Int) :
    ∃ w, pmFind (scanFill a y) y = some w ∧
      (pmFind a y = some w ∨ (pmFind a y = none ∧ w = max 0 (scanVal a y))) := by
  rw [scanFill]
  split
  · rename_i w heq
    exact ⟨w, heq, Or.inl heq⟩
  · rename_i heq
    exact ⟨_, pmFind_pmSet_self _ _ _, Or.inr ⟨heq, rfl⟩⟩

/-- The two key facts about the scan state after `n` iterations: every
processed year has a value, and once a processed year's value is 0 the
depleted flag is set and every later processed year's value is 0. -/
theorem scanS_invariant (a0 : List (Int × ℚ)) (hNN : pmNN a0) (n : Nat) :
    (∀ j : Int, 0 ≤ j → j < (n : Int) → (pmFind (scanS a0 n).1 j).isSome) ∧
    (∀ j : Int, 0 ≤ j → j < (n : Int) → pmFind (scanS a0 n).1 j = some 0 →
      (scanS a0 n).2 = true ∧
        ∀ jj : Int, j ≤ jj → jj < (n : Int) → pmFind (scanS a0 n).1 jj = some 0) := by
  induction n with
  | zero =>
    constructor
    · intro j h1 h2
      exact absurd h2 (by push_cast; omega)
    · intro j h1 h2
      exact absurd h2 (by push_cast; omega)
  | succ n ih =>
    obtain ⟨ihSome, ihZT⟩ := ih
    have hNNn : pmNN (scanS a0 n).1 := scanS_NN a0 hNN n
    obtain ⟨w, hw, hwsrc⟩ := scanFill_find_self (scanS a0 n).1 (n : Int)
    have hwNN : 0 ≤ w := by
      rcases hwsrc with h1 | ⟨h1, rfl⟩
      · exact pmNN_find _ _ _ hNNn h1
      · exact le_max_left _ _
    by_cases hdep : (scanS a0 n).2
    · -- already depleted: the step writes 0 at year n and keeps the flag
      have hstep : scanStep (scanS a0 n) n =
          (pmSet (scanFill (scanS a0 n).1 (n : Int)) (n : Int) 0, true) := by
        simp only [scanStep]
        rw [if_neg (by simp [hdep]), if_pos hdep]
      rw [scanS_succ, hstep]
      constructor
      · intro j h1 h2
        rcases (by push_cast at h2 ⊢; omega : j < (n : Int) ∨ j = (n : Int)) with h3 | h3
        · rw [pmFind_pmSet_ne _ _ _ _ (by omega), scanFill_find_ne _ _ _ (by omega)]
          exact ihSome j h1 h3
        · rw [h3, pmFind_pmSet_self]
          rfl
      · intro j h1 h2 h3
        refine ⟨rfl, fun jj hjj1 hjj2 => ?_⟩
        rcases (by push_cast at hjj2 ⊢; omega : jj < (n : Int) ∨ jj = (n : Int)) with h4 | h4
        · have hjn : j < (n : Int) := by omega
          rw [pmFind_pmSet_ne _ _ _ _ (by omega), scanFill_find_ne _ _ _ (by omega)] at h3
          rw [pmFind_pmSet_ne _ _ _ _ (by omega), scanFill_find_ne _ _ _ (by omega)]
          exact (ihZT j h1 hjn h3).2 jj hjj1 h4
        · rw [h4, pmFind_pmSet_self]
    · by_cases hcur : w ≤ 0
      · -- depletion triggers at year n
        have hw0 : w = 0 := le_antisymm hcur hwNN
        have hstep : scanStep (scanS a0 n) n =
            (pmSet (scanFill (scanS a0 n).1 (n : Int)) (n : Int) 0, true) := by
          simp only [scanStep]
          rw [if_pos ⟨hdep, by rw [hw]; simpa using hcur⟩]
        rw [scanS_succ, hstep]
        constructor
        · intro j h1 h2
          rcases (by push_cast at h2 ⊢; omega : j < (n : Int) ∨ j = (n : Int)) with h3 | h3
          · rw [pmFind_pmSet_ne _ _ _ _ (by omega), scanFill_find_ne _ _ _ (by omega)]
            exact ihSome j h1 h3
          · rw [h3, pmFind_pmSet_self]
            rfl
        · intro j h1 h2 h3
          refine ⟨rfl, fun jj hjj1 hjj2 => ?_⟩
          rcases (by push_cast at hjj2 ⊢; omega : jj < (n : Int) ∨ jj = (n : Int)) with h4 | h4
          · have hjn : j < (n : Int) := by omega
            rw [pmFind_pmSet_ne _ _ _ _ (by omega), scanFill_find_ne _ _ _ (by omega)] at h3
            exact absurd (ihZT j h1 hjn h3).1 hdep
          · rw [h4, pmFind_pmSet_self]
      · -- no depletion: the step only fills year n with a positive value
        have hstep : scanStep (scanS a0 n) n =
            (scanFill (scanS a0 n).1 (n : Int), (scanS a0 n).2) := by
          simp only [scanStep]
          rw [if_neg, if_neg hdep]
          rintro ⟨-, hc⟩
          rw [hw] at hc
          simp only [Option.getD_some] at hc
          exact hcur hc
        rw [scanS_succ, hstep]
        constructor
        · intro j h1 h2
          rcases (by push_cast at h2 ⊢; omega : j < (n : Int) ∨ j = (n : Int)) with h3 | h3
          · rw [scanFill_find_ne _ _ _ (by omega)]
            exact ihSome j h1 h3
          · rw [h3, hw]
            rfl
        · intro j h1 h2 h3
          rcases (by push_cast at h2 ⊢; omega : j < (n : Int) ∨ j = (n : Int)) with h4 | h4
          · rw [scanFill_find_ne _ _ _ (by omega)] at h3
            exact absurd (ihZT j h1 h4 h3).1 hdep
          · rw [h4, hw] at h3
            have : w = 0 := by injection h3
            exact absurd (le_of_eq this) hcur

theorem scanS_stable (a0 : List (Int × ℚ)) (n m : Nat) (h : n ≤ m) (j : Int)
    (hj : j < (n : Int)) : pmFind (scanS a0 m).1 j = pmFind (scanS a0 n).1 j := by
  induction m with
  | zero =>
    obtain rfl : n = 0 := Nat.le_zero.mp h
    rfl
  | succ m ih =>
    rcases Nat.lt_or_ge n (m + 1) with h1 | h2
    · have h2 : n ≤ m := by omega
      rw [scanS_succ, scanStep_find_ne _ _ _ (by omega), ih h2]
    · obtain rfl : n = m + 1 := le_antisymm h h2
      rfl

theorem scanS_untouched (a0 : List (Int × ℚ)) (n : Nat) (j : Int) (hj : (n : Int) ≤ j) :
    pmFind (scanS a0 n).1 j = pmFind a0 j := by
  induction n with
  | zero => rfl
  | succ n ih =>
    rw [scanS_succ, scanStep_find_ne _ _ _ (by push_cast at hj ⊢; omega)]
    exact ih (by push_cast at hj ⊢; omega)

/-- A year that enters the scan with value 0 still has value 0 when the scan
finishes. -/
theorem scanS_zero_persist (a0 : List (Int × ℚ)) (y : Int) (h0 : pmFind a0 y = some 0)
    (hy : 0 ≤ y) (hy26 : y < 26) : pmFind (scanS a0 26).1 y = some 0 := by
  have hn : ((y.toNat : Nat) : Int) = y := Int.toNat_of_nonneg hy
  have h1 : pmFind (scanS a0 y.toNat).1 y = some 0 := by
    rw [scanS_untouched a0 y.toNat y (by omega)]
    exact h0
  have h2 : pmFind (scanS a0 (y.toNat + 1)).1 y = some 0 := by
    rw [scanS_succ]
    simp only [scanStep, hn]
    rw [scanFill_of_some _ _ _ h1]
    by_cases hdep : (scanS a0 y.toNat).2
    · rw [if_neg (by simp [hdep]), if_pos hdep]
      exact pmFind_pmSet_self _ _ _
    · rw [if_pos ⟨hdep, by rw [h1]; norm_num⟩]
      exact pmFind_pmSet_self _ _ _
  calc pmFind (scanS a0 26).1 y
      = pmFind (scanS a0 (y.toNat + 1)).1 y :=
        scanS_stable a0 (y.toNat + 1) 26 (by omega) y (by push_cast; omega)
    _ = some 0 := h2

/-! ### Keys of a point map, and values the interpolation phase preserves -/

theorem keysOf_chain (m : List (Int × ℚ)) : List.Chain' (· < ·) (keysOf m) := by
  apply List.Pairwise.chain'
  rw [keysOf, List.pairwise_map]
  refine ((List.pairwise_lt_range 26).filter _).imp ?_
  intro a b hab
  exact_mod_cast hab

theorem mem_keysOf (m : List (Int × ℚ)) (k : Int) (h0 : 0 ≤ k) (h26 : k < 26)
    (hs : (pmFind m k).isSome) : k ∈ keysOf m := by
  rw [keysOf]
  refine List.mem_map.mpr ⟨k.toNat, ?_, Int.toNat_of_nonneg h0⟩
  refine List.mem_filter.mpr ⟨List.mem_range.mpr (by omega), ?_⟩
  rw [Int.toNat_of_nonneg h0]
  exact hs

theorem interpSeg_foldl_ne (py : Int) (pv : ℚ) (y : Int) (cv : ℚ) (k : Int) :
    ∀ (l : List ℕ) (a : List (Int × ℚ)), (∀ s ∈ l, py + (s : Int) ≠ k) →
      pmFind (List.foldl (fun (a : List (Int × ℚ)) (step : ℕ) =>
        pmSet a (py + (step : Int))
          (max 0 (pv + (cv - pv) * ((step : ℚ) / (((y - py : Int)) : ℚ))))) a l) k =
        pmFind a k := by
  intro l
  induction l with
  | nil => intro a _; rfl
  | cons s rest ih =>
    intro a hl
    rw [List.foldl_cons, ih _ (fun t ht => hl t (List.mem_cons_of_mem _ ht))]
    exact pmFind_pmSet_ne _ _ _ _ (fun e => hl s (List.mem_cons_self _ _) e.symm)

theorem interpSeg_find_le (a : List (Int × ℚ)) (py : Int) (pv : ℚ) (y : Int) (cv : ℚ)
    (k : Int) (hk : k ≤ py) : pmFind (interpSeg a py pv y cv) k = pmFind a k := by
  simp only [interpSeg]
  split
  · apply interpSeg_foldl_ne
    intro s hs
    rcases List.mem_range'.mp hs with ⟨i, hi, rfl⟩
    omega
  · rfl

theorem interpSeg_find_ge (a : List (Int × ℚ)) (py : Int) (pv : ℚ) (y : Int) (cv : ℚ)
    (k : Int) (hk : y ≤ k) : pmFind (interpSeg a py pv y cv) k = pmFind a k := by
  simp only [interpSeg]
  split
  · rename_i hspan
    apply interpSeg_foldl_ne
    intro s hs
    rcases List.mem_range'.mp hs with ⟨i, hi, rfl⟩
    omega
  · rfl

theorem buildAnnualGo_stable (pm : List (Int × ℚ)) :
    ∀ (ys : List Int) (a : List (Int × ℚ)) (prev k : Int),
      List.Chain' (· < ·) (prev :: ys) → k ≤ prev →
      pmFind (buildAnnualGo pm a prev ys) k = pmFind a k := by
  intro ys
  induction ys with
  | nil => intro a prev k _ _; rfl
  | cons y rest ih =>
    intro a prev k hch hk
    obtain ⟨hpy, hch2⟩ := List.chain'_cons.mp hch
    rw [buildAnnualGo, ih _ _ _ hch2 (by omega),
      interpSeg_find_le _ _ _ _ _ _ hk, pmFind_pmSet_ne _ _ _ _ (by omega)]

theorem buildAnnualGo_known (pm : List (Int × ℚ)) :
    ∀ (ys : List Int) (a : List (Int × ℚ)) (prev y0 : Int),
      List.Chain' (· < ·) (prev :: ys) → y0 ∈ ys →
      pmFind (buildAnnualGo pm a prev ys) y0 = some ((pmFind pm y0).getD 0) := by
  intro ys
  induction ys with
  | nil => intro a prev y0 _ h; simp at h
  | cons y rest ih =>
    intro a prev y0 hch hy0
    obtain ⟨hpy, hch2⟩ := List.chain'_cons.mp hch
    rcases List.mem_cons.mp hy0 with rfl | hy0
    · rw [buildAnnualGo, buildAnnualGo_stable pm rest _ y0 y0 hch2 (le_refl y0),
        interpSeg_find_ge _ _ _ _ _ _ (le_refl y0), pmFind_pmSet_self]
    · rw [buildAnnualGo]
      exact ih _ _ _ hch2 hy0

/-- The interpolation phase keeps every known year at its `point_map` value. -/
theorem buildAnnual_known (pm : List (Int × ℚ)) (ys : List Int) (y0 : Int)
    (hch : List.Chain' (· < ·) ys) (hy0 : y0 ∈ ys) :
    pmFind (buildAnnual pm ys) y0 = some ((pmFind pm y0).getD 0) := by
  cases ys with
  | nil => simp at hy0
  | cons y rest =>
    rcases List.mem_cons.mp hy0 with rfl | h2
    · rw [buildAnnual, buildAnnualGo_stable pm rest _ y0 y0 hch (le_refl y0), pmFind_pmSet_self]
    · rw [buildAnnual]
      exact buildAnnualGo_known pm rest _ y y0 hch h2

/-- The anchor step never removes or changes an existing entry. -/
theorem anchorPointMap_find_some (raw : List (Int × ℚ)) (pm : List (Int × ℚ)) (y : Int)
    (w : ℚ) (h : pmFind pm y = some w) : pmFind (anchorPointMap raw pm) y = some w := by
  rw [anchorPointMap]
  split
  · rename_i hcond
    split
    · by_cases hy : y = 0
      · subst hy
        rw [h] at hcond
        simp at hcond
      · exact (pmFind_pmSet_ne _ _ _ _ hy).trans h
    · exact h
  · exact h

/-! ### Output membership helpers -/

theorem fallbackSeries_snd (p : Int × ℚ) (hp : p ∈ fallbackSeries) : p.2 = 0 := by
  rw [fallbackSeries] at hp
  rcases List.mem_map.mp hp with ⟨cp, _, rfl⟩
  rfl

theorem expected_bounds : ∀ cp ∈ EXPECTED_CASHFLOW_YEARS, 0 ≤ cp ∧ cp ≤ 25 := by decide

theorem enforce_mem (pts : List PyVal) (hne : ¬ keysOf (normalizePoints pts) = [])
    (p : Int × ℚ) (hp : p ∈ enforce_cashflow_horizon (.vList pts)) :
    ∃ cp ∈ EXPECTED_CASHFLOW_YEARS,
      p = (cp, round2 ((pmFind (scannedAnnual (normalizePoints pts)
        (keysOf (normalizePoints pts))) cp).getD 0)) := by
  simp only [enforce_cashflow_horizon, if_neg hne] at hp
  rcases List.mem_map.mp hp with ⟨cp, hcp, rfl⟩
  exact ⟨cp, hcp, rfl⟩

/-- C3 (amended): if the pre-rounding sampled value at some year `y ≥ 0` is
0 (actual depletion rather than a rounding artifact), then every output
checkpoint at a year ≥ `y` has `end_assets` exactly 0. -/
theorem depletion_monotone_from_unrounded (x : PyVal) (y : Int) (h0 : 0 ≤ y)
    (hz : normalizeAnnual x y = 0) :
    ∀ p ∈ enforce_cashflow_horizon x, y ≤ p.1 → p.2 = 0 := by
  intro p hp hyp
  cases x with
  | vList pts =>
    by_cases hne : keysOf (normalizePoints pts) = []
    · refine fallbackSeries_snd p ?_
      simpa only [enforce_cashflow_horizon, if_pos hne] using hp
    · obtain ⟨cp, hcp, rfl⟩ := enforce_mem pts hne p hp
      obtain ⟨hcp0, hcp25⟩ := expected_bounds cp hcp
      have hyp' : y ≤ cp := hyp
      have hy26 : y < 26 := by omega
      have hNN : pmNN (buildAnnual (normalizePoints pts) (keysOf (normalizePoints pts))) :=
        buildAnnual_NN _ _ (normalizePoints_NN pts)
      obtain ⟨hSome, hZT⟩ := scanS_invariant _ hNN 26
      simp only [normalizeAnnual, if_neg hne, scannedAnnual] at hz
      have hys := hSome y h0 (by push_cast; omega)
      obtain ⟨w, hw⟩ := Option.isSome_iff_exists.mp hys
      rw [hw] at hz
      simp only [Option.getD_some] at hz
      subst hz
      have hcpz := (hZT y h0 (by push_cast; omega) hw).2 cp hyp' (by push_cast; omega)
      simp only [scannedAnnual, hcpz, Option.getD_some]
      exact round2_zero
  | vNone => exact fallbackSeries_snd p hp
  | vInt n => exact fallbackSeries_snd p hp
  | vFloat q => exact fallbackSeries_snd p hp
  | vStr s => exact fallbackSeries_snd p hp
  | vDict entries => exact fallbackSeries_snd p hp

/-- C5: depletion is permanent with respect to the raw input: if the
sanitized, deduplicated point set maps some year `y` to a value ≤ 0 (stored
clamped to 0), every output checkpoint at a year ≥ `y` has `end_assets`
exactly 0, regardless of any later raw points claiming positive values. -/
theorem depletion_permanent_from_raw (pts : List PyVal) (y : Int) (w : ℚ)
    (hw : pmFind (rawPointMap (pts.filterMap sanitizeRecord)) y = some w) (hw0 : w ≤ 0) :
    ∀ p ∈ enforce_cashflow_horizon (.vList pts), y ≤ p.1 → p.2 = 0 := by
  have hprop : (0 ≤ y ∧ y ≤ 25) ∧ 0 ≤ w := by
    refine rawPointMap_prop (fun q => (0 ≤ q.1 ∧ q.1 ≤ 25) ∧ 0 ≤ q.2) _ ?_ _
      (pmFind_mem _ _ _ hw)
    intro q hq
    rcases List.mem_filterMap.mp hq with ⟨a, _, ha⟩
    exact sanitizeRecord_some a q ha
  obtain ⟨⟨hy0, hy25⟩, hwnn⟩ := hprop
  obtain rfl : w = 0 := le_antisymm hw0 hwnn
  have hanch : pmFind (normalizePoints pts) y = some 0 :=
    anchorPointMap_find_some _ _ _ _ hw
  have hmem : y ∈ keysOf (normalizePoints pts) :=
    mem_keysOf _ y hy0 (by omega) (by rw [hanch]; rfl)
  have hne : ¬ keysOf (normalizePoints pts) = [] := by
    intro h
    rw [h] at hmem
    simp at hmem
  have hann : pmFind (buildAnnual (normalizePoints pts) (keysOf (normalizePoints pts))) y =
      some 0 := by
    rw [buildAnnual_known _ _ _ (keysOf_chain _) hmem, hanch]
    rfl
  have hNN : pmNN (buildAnnual (normalizePoints pts) (keysOf (normalizePoints pts))) :=
    buildAnnual_NN _ _ (normalizePoints_NN pts)
  have hfinal := scanS_zero_persist _ y hann hy0 (by omega)
  obtain ⟨hSome, hZT⟩ := scanS_invariant _ hNN 26
  intro p hp hyp
  obtain ⟨cp, hcp, rfl⟩ := enforce_mem pts hne p hp
  obtain ⟨hcp0, hcp25⟩ := expected_bounds cp hcp
  have hcpz := (hZT y hy0 (by push_cast; omega) hfinal).2 cp hyp (by push_cast; omega)
  simp only [scannedAnnual, hcpz, Option.getD_some]
  exact round2_zero

/-! ### The scan on a single positive year-0 point stays flat -/

theorem range_filter_lt (c : ℕ) : ∀ m : ℕ, c ≤ m →
    (List.range m).filter (fun n => decide (n < c)) = List.range c := by
  intro m
  induction m with
  | zero =>
    intro h
    obtain rfl : c = 0 := Nat.le_zero.mp h
    rfl
  | succ m ih =>
    intro h
    rcases Nat.lt_or_ge c (m + 1) with h1 | h2
    · have h2 : c ≤ m := by omega
      rw [List.range_succ, List.filter_append, ih h2]
      have hm : ¬ (m < c) := by omega
      simp [hm]
    · obtain rfl : c = m + 1 := le_antisymm h h2
      rw [List.range_succ, List.filter_append, List.filter_eq_self.mpr ?_]
      · have : List.filter (fun n => decide (n < m + 1)) [m] = [m] := by simp
        rw [this, ← List.range_succ]
      · intro a ha
        have := List.mem_range.mp ha
        simp
        omega

theorem pyMaxList_cast_range (c : ℕ) :
    pyMaxList ((List.range (c + 1)).map (fun n : ℕ => (n : Int))) = some ((c : ℕ) : Int) := by
  induction c with
  | zero => rfl
  | succ c ih =>
    rw [List.range_succ, List.map_append]
    rw [pyMaxList] at ih ⊢
    rw [List.foldl_append, ih]
    have hmax : max ((c : ℕ) : Int) (((c + 1 : ℕ) : ℕ) : Int) = (((c + 1 : ℕ) : ℕ) : Int) :=
      max_eq_right (by push_cast; omega)
    simp [List.foldl_cons, List.foldl_nil, hmax]

theorem keysOf_initial (m : List (Int × ℚ)) (c : ℕ) (hc : c ≤ 26)
    (hdom : ∀ n : ℕ, n < 26 → ((pmFind m ((n : ℕ) : Int)).isSome ↔ n < c)) :
    keysOf m = (List.range c).map (fun n : ℕ => (n : Int)) := by
  have hcong : List.filter (fun n => (pmFind m ((n : ℕ) : Int)).isSome) (List.range 26) =
      List.filter (fun n => decide (n < c)) (List.range 26) := by
    apply List.filter_congr
    intro n hn
    have hiff := hdom n (List.mem_range.mp hn)
    by_cases h : n < c
    · simp [hiff.mpr h, h]
    · cases hb : (pmFind m ((n : ℕ) : Int)).isSome with
      | true => exact absurd (hiff.mp hb) h
      | false => simp [h]
  rw [keysOf, hcong, range_filter_lt c 26 hc]

theorem scanS_flat (v : ℚ) (hv : 0 < v) :
    ∀ n : ℕ, n ≤ 26 → 1 ≤ n →
    (∀ j : Int, 0 ≤ j → j < (n : Int) →
      pmFind (scanS [((0 : Int), v)] n).1 j = some v) ∧
    (∀ j : Int, (j < 0 ∨ (n : Int) ≤ j) → pmFind (scanS [((0 : Int), v)] n).1 j = none) ∧
    (scanS [((0 : Int), v)] n).2 = false := by
  intro n
  induction n with
  | zero => intro _ h; exact absurd h (by omega)
  | succ n ih =>
    intro hn26 _
    by_cases hn0 : n = 0
    · subst hn0
      have hone : scanS [((0 : Int), v)] 1 = ([((0 : Int), v)], false) := by
        rw [scanS_succ]
        show scanStep ([((0 : Int), v)], false) 0 = ([((0 : Int), v)], false)
        simp only [scanStep]
        rw [scanFill_of_some _ _ v (by simp [pmFind])]
        rw [if_neg ?_, if_neg (by simp)]
        rintro ⟨-, hc⟩
        rw [show pmFind [((0 : Int), v)] (((0 : ℕ) : ℕ) : Int) = some v by simp [pmFind]] at hc
        simp only [Option.getD_some] at hc
        exact absurd hc (not_le.mpr hv)
      refine ⟨?_, ?_, by rw [hone]⟩
      · intro j hj0 hj1
        obtain rfl : j = 0 := by push_cast at hj1; omega
        rw [hone]
        simp [pmFind]
      · intro j hj
        rw [hone]
        have : ¬ ((0 : Int) = j) := by push_cast at hj; omega
        simp [pmFind, this]
    · have hge : 1 ≤ n := by omega
      obtain ⟨ih1, ih2, ih3⟩ := ih (by omega) hge
      have hdom : ∀ m : ℕ, m < 26 →
          ((pmFind (scanS [((0 : Int), v)] n).1 ((m : ℕ) : Int)).isSome ↔ m < n) := by
        intro m _
        constructor
        · intro hs
          by_contra hnm
          rw [ih2 ((m : ℕ) : Int) (Or.inr (by omega))] at hs
          simp at hs
        · intro hmn
          rw [ih1 ((m : ℕ) : Int) (by omega) (by omega)]
          rfl
      have hkeys := keysOf_initial _ n (by omega) hdom
      have hnone : pmFind (scanS [((0 : Int), v)] n).1 ((n : ℕ) : Int) = none :=
        ih2 _ (Or.inr (le_refl _))
      have hval : v = max 0 (scanVal (scanS [((0 : Int), v)] n).1 ((n : ℕ) : Int)) := by
        have hsv : scanVal (scanS [((0 : Int), v)] n).1 ((n : ℕ) : Int) = v := by
          simp only [scanVal]
          rw [hkeys]
          have hfilt1 : ((List.range n).map (fun m : ℕ => (m : Int))).filter
              (fun k => decide (k < ((n : ℕ) : Int))) =
              (List.range n).map (fun m : ℕ => (m : Int)) := by
            apply List.filter_eq_self.mpr
            intro a ha
            rcases List.mem_map.mp ha with ⟨m, hm, rfl⟩
            have := List.mem_range.mp hm
            simp
            omega
          have hfilt2 : ((List.range n).map (fun m : ℕ => (m : Int))).filter
              (fun k => decide (((n : ℕ) : Int) < k)) = [] := by
            apply List.filter_eq_nil_iff.mpr
            intro a ha
            rcases List.mem_map.mp ha with ⟨m, hm, rfl⟩
            have := List.mem_range.mp hm
            simp
            omega
          rw [hfilt1, hfilt2]
          obtain ⟨n', rfl⟩ : ∃ n', n = n' + 1 := ⟨n - 1, by omega⟩
          rw [pyMaxList_cast_range n']
          show (pmFind (scanS [((0 : Int), v)] (n' + 1)).1
            (pyOrKey (some ((n' : ℕ) : Int)) (pyMinList []))).getD 0 = v
          by_cases h0 : ((n' : ℕ) : Int) = 0
          · rw [show pyOrKey (some ((n' : ℕ) : Int)) (pyMinList []) = 0 by
              simp [pyOrKey, pyMinList, h0]]
            rw [ih1 0 (le_refl 0) (by omega)]
            rfl
          · rw [show pyOrKey (some ((n' : ℕ) : Int)) (pyMinList []) = ((n' : ℕ) : Int) by
              simp [pyOrKey, pyMinList, h0]]
            rw [ih1 ((n' : ℕ) : Int) (by omega) (by omega)]
            rfl
        rw [hsv]
        exact (max_eq_right hv.le).symm
      have hstep : scanS [((0 : Int), v)] (n + 1) =
          (pmSet (scanS [((0 : Int), v)] n).1 ((n : ℕ) : Int) v, false) := by
        rw [scanS_succ]
        simp only [scanStep, scanFill, hnone]
        rw [← hval]
        rw [if_neg ?_, if_neg (by simp [ih3]), ih3]
        rintro ⟨-, hc⟩
        rw [pmFind_pmSet_self] at hc
        simp only [Option.getD_some] at hc
        exact absurd hc (not_le.mpr hv)
      rw [hstep]
      refine ⟨?_, ?_, rfl⟩
      · intro j hj0 hjn1
        rcases (by push_cast at hjn1 ⊢; omega : j < (n : Int) ∨ j = (n : Int)) with h | h
        · rw [pmFind_pmSet_ne _ _ _ _ (by omega)]
          exact ih1 j hj0 h
        · rw [h, pmFind_pmSet_self]
      · intro j hj
        have hj' : j < 0 ∨ ((n : ℕ) : Int) + 1 ≤ j := by push_cast at hj ⊢; omega
        rw [pmFind_pmSet_ne _ _ _ _ (by omega)]
        exact ih2 j (by omega)

/-- C8: if the sanitized, deduplicated point set contains exactly one point,
at year 0 with strictly positive value `v`, every one of the six output
checkpoints carries `end_assets = round2 v` — the series stays flat with no
assumed decay. -/
theorem single_point_flat_persistence (pts : List PyVal) (v : ℚ)
    (h0 : pmFind (rawPointMap (pts.filterMap sanitizeRecord)) 0 = some v)
    (hother : ∀ k : Int, k ≠ 0 →
      pmFind (rawPointMap (pts.filterMap sanitizeRecord)) k = none)
    (hv : 0 < v) :
    enforce_cashflow_horizon (.vList pts) =
      EXPECTED_CASHFLOW_YEARS.map (fun y => (y, round2 v)) := by
  have hanchor : normalizePoints pts = rawPointMap (pts.filterMap sanitizeRecord) := by
    rw [normalizePoints, anchorPointMap, if_neg]
    rintro ⟨h1, -⟩
    rw [h0] at h1
    simp at h1
  have hdom : ∀ n : ℕ, n < 26 →
      ((pmFind (rawPointMap (pts.filterMap sanitizeRecord)) ((n : ℕ) : Int)).isSome ↔
        n < 1) := by
    intro n _
    constructor
    · intro hs
      by_contra hlt
      have hne : ((n : ℕ) : Int) ≠ 0 := by omega
      rw [hother _ hne] at hs
      simp at hs
    · intro h1
      obtain rfl : n = 0 := by omega
      rw [show (((0 : ℕ) : ℕ) : Int) = (0 : Int) by norm_num, h0]
      rfl
  have hkeys : keysOf (rawPointMap (pts.filterMap sanitizeRecord)) = [(0 : Int)] := by
    rw [keysOf_initial _ 1 (by omega) hdom]
    rfl
  have hannual : buildAnnual (rawPointMap (pts.filterMap sanitizeRecord)) [(0 : Int)] =
      [((0 : Int), v)] := by
    simp [buildAnnual, buildAnnualGo, pmSet, h0]
  obtain ⟨hf1, _, _⟩ := scanS_flat v hv 26 (le_refl 26) (by omega)
  simp only [enforce_cashflow_horizon, hanchor, hkeys]
  rw [if_neg (by simp)]
  apply List.map_congr_left
  intro cp hcp
  obtain ⟨hcp0, hcp25⟩ := expected_bounds cp hcp
  have hfound : pmFind (scannedAnnual (rawPointMap (pts.filterMap sanitizeRecord))
      [(0 : Int)]) cp = some v := by
    rw [scannedAnnual, hannual]
    exact hf1 cp hcp0 (by push_cast; omega)
  rw [hfound]
  rfl

/-! ### Positivity and coverage of the interpolation phase -/

theorem interp_pos (a b r : ℚ) (ha : 0 < a) (hb : 0 < b) (hr0 : 0 ≤ r) (hr1 : r ≤ 1) :
    0 < a + (b - a) * r := by
  rcases eq_or_lt_of_le hr0 with hr | hr
  · rw [← hr]
    simpa using ha
  · have h1 : 0 ≤ a * (1 - r) := mul_nonneg ha.le (by linarith)
    have h2 : 0 < b * r := mul_pos hb hr
    have hid : a + (b - a) * r = a * (1 - r) + b * r := by ring
    rw [hid]
    linarith

theorem pmFind_pmSet_isSome (m : List (Int × ℚ)) (y : Int) (v : ℚ) (k : Int)
    (h : (pmFind m k).isSome) : (pmFind (pmSet m y v) k).isSome := by
  by_cases hk : k = y
  · subst hk
    rw [pmFind_pmSet_self]
    rfl
  · rw [pmFind_pmSet_ne _ _ _ _ hk]
    exact h

theorem interpSeg_foldl_isSome (py : Int) (pv : ℚ) (y : Int) (cv : ℚ) (k : Int) :
    ∀ (l : List ℕ) (a : List (Int × ℚ)), (pmFind a k).isSome →
      (pmFind (List.foldl (fun (a : List (Int × ℚ)) (step : ℕ) =>
        pmSet a (py + (step : Int))
          (max 0 (pv + (cv - pv) * ((step : ℚ) / (((y - py : Int)) : ℚ))))) a l) k).isSome := by
  intro l
  induction l with
  | nil => intro a h; exact h
  | cons s rest ih =>
    intro a h
    rw [List.foldl_cons]
    exact ih _ (pmFind_pmSet_isSome _ _ _ _ h)

theorem interpSeg_isSome_mono (a : List (Int × ℚ)) (py : Int) (pv : ℚ) (y : Int) (cv : ℚ)
    (k : Int) (h : (pmFind a k).isSome) : (pmFind (interpSeg a py pv y cv) k).isSome := by
  simp only [interpSeg]
  split
  · exact interpSeg_foldl_isSome _ _ _ _ _ _ _ h
  · exact h

theorem interpSeg_foldl_covers (py : Int) (pv : ℚ) (y : Int) (cv : ℚ) (k : Int) :
    ∀ (l : List ℕ) (a : List (Int × ℚ)), (∃ s ∈ l, py + (s : Int) = k) →
      (pmFind (List.foldl (fun (a : List (Int × ℚ)) (step : ℕ) =>
        pmSet a (py + (step : Int))
          (max 0 (pv + (cv - pv) * ((step : ℚ) / (((y - py : Int)) : ℚ))))) a l) k).isSome := by
  intro l
  induction l with
  | nil =>
    intro a h
    rcases h with ⟨s, hs, _⟩
    simp at hs
  | cons s rest ih =>
    intro a h
    rw [List.foldl_cons]
    rcases h with ⟨t, ht, hk⟩
    rcases List.mem_cons.mp ht with rfl | ht2
    · apply interpSeg_foldl_isSome
      rw [hk, pmFind_pmSet_self]
      rfl
    · exact ih _ ⟨t, ht2, hk⟩

theorem interpSeg_covers (a : List (Int × ℚ)) (py : Int) (pv : ℚ) (y : Int) (cv : ℚ)
    (k : Int) (h1 : py < k) (h2 : k < y) :
    (pmFind (interpSeg a py pv y cv) k).isSome := by
  simp only [interpSeg]
  split
  · rename_i hspan
    apply interpSeg_foldl_covers
    refine ⟨(k - py).toNat, ?_, by omega⟩
    apply List.mem_range'.mpr
    exact ⟨(k - py).toNat - 1, by omega, by omega⟩
  · rename_i hspan
    omega

theorem buildAnnualGo_isSome_mono (pm : List (Int × ℚ)) :
    ∀ (ys : List Int) (a : List (Int × ℚ)) (prev k : Int), (pmFind a k).isSome →
      (pmFind (buildAnnualGo pm a prev ys) k).isSome := by
  intro ys
  induction ys with
  | nil => intro a prev k h; exact h
  | cons y rest ih =>
    intro a prev k h
    rw [buildAnnualGo]
    exact ih _ _ _ (interpSeg_isSome_mono _ _ _ _ _ _ (pmFind_pmSet_isSome _ _ _ _ h))

theorem buildAnnualGo_covers (pm : List (Int × ℚ)) :
    ∀ (ys : List Int) (a : List (Int × ℚ)) (prev : Int), ∀ y0 ∈ ys, ∀ k : Int,
      prev < k → k ≤ y0 → (pmFind (buildAnnualGo pm a prev ys) k).isSome := by
  intro ys
  induction ys with
  | nil => intro a prev y0 h; simp at h
  | cons y rest ih =>
    intro a prev y0 hy0 k hk1 hk2
    rcases List.mem_cons.mp hy0 with rfl | hy2
    · rw [buildAnnualGo]
      apply buildAnnualGo_isSome_mono
      rcases eq_or_lt_of_le hk2 with rfl | hlt
      · exact interpSeg_isSome_mono _ _ _ _ _ _
          (by rw [pmFind_pmSet_self]; rfl)
      · exact interpSeg_covers _ _ _ _ _ _ hk1 hlt
    · by_cases hky : k ≤ y
      · rcases eq_or_lt_of_le hky with rfl | hlt
        · rw [buildAnnualGo]
          apply buildAnnualGo_isSome_mono
          exact interpSeg_isSome_mono _ _ _ _ _ _ (by rw [pmFind_pmSet_self]; rfl)
        · rw [buildAnnualGo]
          apply buildAnnualGo_isSome_mono
          exact interpSeg_covers _ _ _ _ _ _ hk1 hlt
      · rw [buildAnnualGo]
        exact ih _ _ y0 hy2 k (by omega) hk2

/-- The interpolation phase covers every year between the first key and any
key of the walked list. -/
theorem buildAnnual_covers (pm : List (Int × ℚ)) (y : Int) (rest : List Int) (y0 : Int)
    (hy0 : y0 ∈ y :: rest) (k : Int) (hk1 : y ≤ k) (hk2 : k ≤ y0) :
    (pmFind (buildAnnual pm (y :: rest)) k).isSome := by
  rw [buildAnnual]
  rcases eq_or_lt_of_le hk1 with rfl | hlt
  · exact buildAnnualGo_isSome_mono _ _ _ _ _ (by rw [pmFind_pmSet_self]; rfl)
  · rcases List.mem_cons.mp hy0 with rfl | hy2
    · omega
    · exact buildAnnualGo_covers pm rest _ y y0 hy2 k hlt hk2

theorem interpSeg_pos (a : List (Int × ℚ)) (py : Int) (pv : ℚ) (y : Int) (cv : ℚ)
    (ha : ∀ p ∈ a, 0 < p.2) (hpv : 0 < pv) (hcv : 0 < cv) :
    ∀ p ∈ interpSeg a py pv y cv, 0 < p.2 := by
  simp only [interpSeg]
  split
  · rename_i hspan
    have : ∀ (l : List ℕ), (∀ s ∈ l, (s : Int) < y - py) → ∀ (a : List (Int × ℚ)),
        (∀ p ∈ a, 0 < p.2) →
        ∀ p ∈ List.foldl (fun (a : List (Int × ℚ)) (step : ℕ) =>
          pmSet a (py + (step : Int))
            (max 0 (pv + (cv - pv) * ((step : ℚ) / (((y - py : Int)) : ℚ))))) a l, 0 < p.2 := by
      intro l
      induction l with
      | nil => intro _ a ha p hp; exact ha p hp
      | cons s rest ih =>
        intro hl a ha
        rw [List.foldl_cons]
        refine ih (fun t ht => hl t (List.mem_cons_of_mem _ ht)) _ ?_
        intro p hp
        rcases mem_pmSet _ _ _ _ hp with rfl | h2
        · have hspanq : (0 : ℚ) < (((y - py : Int)) : ℚ) := by
            exact_mod_cast by omega
          have hsq : ((s : ℕ) : ℚ) ≤ (((y - py : Int)) : ℚ) := by
            have := hl s (List.mem_cons_self _ _)
            exact_mod_cast by omega
          have hr0 : (0 : ℚ) ≤ (s : ℚ) / (((y - py : Int)) : ℚ) :=
            div_nonneg (by positivity) hspanq.le
          have hr1 : (s : ℚ) / (((y - py : Int)) : ℚ) ≤ 1 :=
            (div_le_one hspanq).mpr hsq
          have := interp_pos pv cv _ hpv hcv hr0 hr1
          exact lt_max_iff.mpr (Or.inr this)
        · exact ha p h2
    refine this _ ?_ a ha
    intro s hs
    rcases List.mem_range'.mp hs with ⟨i, hi, rfl⟩
    omega
  · exact ha

theorem buildAnnualGo_pos (pm : List (Int × ℚ)) :
    ∀ (ys : List Int) (a : List (Int × ℚ)) (prev : Int),
      (∀ y0 ∈ ys, 0 < (pmFind pm y0).getD 0) → 0 < (pmFind pm prev).getD 0 →
      (∀ p ∈ a, 0 < p.2) → ∀ p ∈ buildAnnualGo pm a prev ys, 0 < p.2 := by
  intro ys
  induction ys with
  | nil => intro a prev _ _ ha p hp; exact ha p hp
  | cons y rest ih =>
    intro a prev hkeys hprev ha
    rw [buildAnnualGo]
    have hy : 0 < (pmFind pm y).getD 0 := hkeys y (List.mem_cons_self _ _)
    refine ih _ _ (fun y0 hy0 => hkeys y0 (List.mem_cons_of_mem _ hy0)) hy ?_
    apply interpSeg_pos _ _ _ _ _ ?_ hprev hy
    intro p hp
    rcases mem_pmSet _ _ _ _ hp with rfl | h2
    · exact hy
    · exact ha p h2

theorem buildAnnual_pos (pm : List (Int × ℚ)) (ys : List Int)
    (hkeys : ∀ y0 ∈ ys, 0 < (pmFind pm y0).getD 0) :
    ∀ p ∈ buildAnnual pm ys, 0 < p.2 := by
  cases ys with
  | nil => intro p hp; simp [buildAnnual] at hp
  | cons y rest =>
    rw [buildAnnual]
    refine buildAnnualGo_pos pm rest _ y
      (fun y0 hy0 => hkeys y0 (List.mem_cons_of_mem _ hy0))
      (hkeys y (List.mem_cons_self _ _)) ?_
    intro p hp
    rcases mem_pmSet _ _ _ _ hp with rfl | h2
    · exact hkeys y (List.mem_cons_self _ _)
    · simp at h2

/-- If every year 0..25 already has a strictly positive value, the depletion
scan is a no-op. -/
theorem scanS_noop (a0 : List (Int × ℚ))
    (hdom : ∀ j : Int, 0 ≤ j → j < 26 → (pmFind a0 j).isSome)
    (hpos : ∀ j w, pmFind a0 j = some w → 0 < w) :
    scanS a0 26 = (a0, false) := by
  have key : ∀ n : ℕ, n ≤ 26 → scanS a0 n = (a0, false) := by
    intro n
    induction n with
    | zero => intro _; rfl
    | succ n ih =>
      intro hn
      rw [scanS_succ, ih (by omega)]
      obtain ⟨w, hw⟩ := Option.isSome_iff_exists.mp
        (hdom ((n : ℕ) : Int) (by omega) (by omega))
      have hwpos := hpos _ _ hw
      simp only [scanStep]
      rw [scanFill_of_some _ _ _ hw]
      rw [if_neg ?_, if_neg (by simp)]
      rintro ⟨-, hc⟩
      rw [hw] at hc
      simp only [Option.getD_some] at hc
      exact absurd hc (not_le.mpr hwpos)
  exact key 26 (le_refl 26)

/-! ### C6: idempotence on canonical input -/

theorem range26 : List.range 26 =
    [0, 1, 2, 3, 4, 5, 6, 7, 8, 9, 10, 11, 12, 13, 14, 15, 16, 17, 18, 19, 20, 21, 22, 23,
      24, 25] := by decide

theorem sanitizeRecord_mkPt (y : Int) (v : ℚ) :
    sanitizeRecord (mkPt y v) = if 0 ≤ y ∧ y ≤ 25 then some (y, max 0 v) else none := rfl

/-- An already-canonical six-point input series. -/
def canonInput (v0 v5 v10 v15 v20 v25 : ℚ) : PyVal :=
  .vList [mkPt 0 v0, mkPt 5 v5, mkPt 10 v10, mkPt 15 v15, mkPt 20 v20, mkPt 25 v25]

set_option maxHeartbeats 2000000 in
/-- C6: normalizing an already-canonical 6-point series with strictly
positive values returns it unchanged up to 2-decimal rounding. -/
theorem canonical_input_idempotent (v0 v5 v10 v15 v20 v25 : ℚ) (h0 : 0 < v0) (h5 : 0 < v5)
    (h10 : 0 < v10) (h15 : 0 < v15) (h20 : 0 < v20) (h25 : 0 < v25) :
    enforce_cashflow_horizon (canonInput v0 v5 v10 v15 v20 v25) =
      [(0, round2 v0), (5, round2 v5), (10, round2 v10), (15, round2 v15), (20, round2 v20),
        (25, round2 v25)] := by
  have hraw : ([mkPt 0 v0, mkPt 5 v5, mkPt 10 v10, mkPt 15 v15, mkPt 20 v20,
      mkPt 25 v25]).filterMap sanitizeRecord =
      [((0 : Int), v0), (5, v5), (10, v10), (15, v15), (20, v20), (25, v25)] := by
    simp [sanitizeRecord_mkPt, max_eq_right h0.le, max_eq_right h5.le, max_eq_right h10.le,
      max_eq_right h15.le, max_eq_right h20.le, max_eq_right h25.le]
  have hpm : rawPointMap [((0 : Int), v0), (5, v5), (10, v10), (15, v15), (20, v20),
      (25, v25)] =
      [((0 : Int), v0), (5, v5), (10, v10), (15, v15), (20, v20), (25, v25)] := by
    simp [rawPointMap, pmSet]
  have hnp : normalizePoints [mkPt 0 v0, mkPt 5 v5, mkPt 10 v10, mkPt 15 v15, mkPt 20 v20,
      mkPt 25 v25] =
      [((0 : Int), v0), (5, v5), (10, v10), (15, v15), (20, v20), (25, v25)] := by
    rw [normalizePoints, hraw, hpm, anchorPointMap, if_neg (by simp [pmFind])]
  have hkeys : keysOf [((0 : Int), v0), (5, v5), (10, v10), (15, v15), (20, v20),
      (25, v25)] = [(0 : Int), 5, 10, 15, 20, 25] := by
    simp [keysOf, pmFind, range26]
  have hkeypos : ∀ y0 ∈ [(0 : Int), 5, 10, 15, 20, 25],
      0 < (pmFind [((0 : Int), v0), (5, v5), (10, v10), (15, v15), (20, v20), (25, v25)]
        y0).getD 0 := by
    intro y0 hy0
    fin_cases hy0 <;> simp [pmFind] <;> assumption
  have hdom : ∀ j : Int, 0 ≤ j → j < 26 →
      (pmFind (buildAnnual [((0 : Int), v0), (5, v5), (10, v10), (15, v15), (20, v20),
        (25, v25)] [(0 : Int), 5, 10, 15, 20, 25]) j).isSome := by
    intro j hj1 hj2
    exact buildAnnual_covers _ 0 [5, 10, 15, 20, 25] 25 (by simp) j hj1 (by omega)
  have hapos : ∀ (j : Int) (w : ℚ),
      pmFind (buildAnnual [((0 : Int), v0), (5, v5), (10, v10), (15, v15), (20, v20),
        (25, v25)] [(0 : Int), 5, 10, 15, 20, 25]) j = some w → 0 < w :=
    fun j w hw => buildAnnual_pos _ _ hkeypos _ (pmFind_mem _ _ _ hw)
  have hscan := scanS_noop _ hdom hapos
  have hcp : ∀ c : Int, c ∈ [(0 : Int), 5, 10, 15, 20, 25] →
      pmFind (buildAnnual [((0 : Int), v0), (5, v5), (10, v10), (15, v15), (20, v20),
        (25, v25)] [(0 : Int), 5, 10, 15, 20, 25]) c =
      some ((pmFind [((0 : Int), v0), (5, v5), (10, v10), (15, v15), (20, v20), (25, v25)]
        c).getD 0) :=
    fun c hc => buildAnnual_known _ _ _ (by norm_num [List.chain'_cons]) hc
  have hc0 : pmFind (buildAnnual [((0 : Int), v0), (5, v5), (10, v10), (15, v15), (20, v20),
      (25, v25)] [(0 : Int), 5, 10, 15, 20, 25]) 0 = some v0 := by
    rw [hcp 0 (by simp), show pmFind [((0 : Int), v0), (5, v5), (10, v10), (15, v15),
      (20, v20), (25, v25)] 0 = some v0 by norm_num [pmFind]]
    rfl
  have hc5 : pmFind (buildAnnual [((0 : Int), v0), (5, v5), (10, v10), (15, v15), (20, v20),
      (25, v25)] [(0 : Int), 5, 10, 15, 20, 25]) 5 = some v5 := by
    rw [hcp 5 (by simp), show pmFind [((0 : Int), v0), (5, v5), (10, v10), (15, v15),
      (20, v20), (25, v25)] 5 = some v5 by norm_num [pmFind]]
    rfl
  have hc10 : pmFind (buildAnnual [((0 : Int), v0), (5, v5), (10, v10), (15, v15), (20, v20),
      (25, v25)] [(0 : Int), 5, 10, 15, 20, 25]) 10 = some v10 := by
    rw [hcp 10 (by simp), show pmFind [((0 : Int), v0), (5, v5), (10, v10), (15, v15),
      (20, v20), (25, v25)] 10 = some v10 by norm_num [pmFind]]
    rfl
  have hc15 : pmFind (buildAnnual [((0 : Int), v0), (5, v5), (10, v10), (15, v15), (20, v20),
      (25, v25)] [(0 : Int), 5, 10, 15, 20, 25]) 15 = some v15 := by
    rw [hcp 15 (by simp), show pmFind [((0 : Int), v0), (5, v5), (10, v10), (15, v15),
      (20, v20), (25, v25)] 15 = some v15 by norm_num [pmFind]]
    rfl
  have hc20 : pmFind (buildAnnual [((0 : Int), v0), (5, v5), (10, v10), (15, v15), (20, v20),
      (25, v25)] [(0 : Int), 5, 10, 15, 20, 25]) 20 = some v20 := by
    rw [hcp 20 (by simp), show pmFind [((0 : Int), v0), (5, v5), (10, v10), (15, v15),
      (20, v20), (25, v25)] 20 = some v20 by norm_num [pmFind]]
    rfl
  have hc25 : pmFind (buildAnnual [((0 : Int), v0), (5, v5), (10, v10), (15, v15), (20, v20),
      (25, v25)] [(0 : Int), 5, 10, 15, 20, 25]) 25 = some v25 := by
    rw [hcp 25 (by simp), show pmFind [((0 : Int), v0), (5, v5), (10, v10), (15, v15),
      (20, v20), (25, v25)] 25 = some v25 by norm_num [pmFind]]
    rfl
  simp only [canonInput, enforce_cashflow_horizon, hnp, hkeys]
  rw [if_neg (by simp), scannedAnnual, hscan]
  simp only [EXPECTED_CASHFLOW_YEARS, List.map_cons, List.map_nil, hc0, hc5, hc10, hc15,
    hc20, hc25, Option.getD_some]

set_option maxRecDepth 8000 in
/-- Witness for C6 at the concrete canonical input of the claim. -/
theorem canonical_input_idempotent_witness :
    enforce_cashflow_horizon (canonInput 100000 140000 160000 170000 190000 210000) =
      [(0, 100000), (5, 140000), (10, 160000), (15, 170000), (20, 190000), (25, 210000)] := by
  have h := canonical_input_idempotent 100000 140000 160000 170000 190000 210000
    (by norm_num) (by norm_num) (by norm_num) (by norm_num) (by norm_num) (by norm_num)
  rw [h]
  norm_num [round2, roundHalfEven]

set_option maxRecDepth 8000 in
set_option maxHeartbeats 4000000 in
/-- C7: gap filling on the concrete input `[{0,50000},{5,20000},{20,0}]`: the
interpolated checkpoints at years 10 and 15 lie strictly between the bounds
of the linear decay from 20000 (year 5) toward 0 (year 20), year 20 is
exactly 0 and year 25 is exactly 0 (depletion propagates forward). -/
theorem gap_filling_concrete :
    enforce_cashflow_horizon (.vList [mkPt 0 50000, mkPt 5 20000, mkPt 20 0]) =
      [(0, 50000), (5, 20000), (10, 1333333 / 100), (15, 666667 / 100), (20, 0), (25, 0)] ∧
    (0 : ℚ) < 1333333 / 100 ∧ (1333333 : ℚ) / 100 < 20000 ∧
    (0 : ℚ) < 666667 / 100 ∧ (666667 : ℚ) / 100 < 20000 := by
  refine ⟨?_, by norm_num, by norm_num, by norm_num, by norm_num⟩
  norm_num [enforce_cashflow_horizon, normalizePoints, anchorPointMap, rawPointMap, pmSet,
    pmFind, keysOf, pyMinList, pyMaxList, sanitizeRecord_mkPt, List.filterMap, range26,
    max_def, scannedAnnual, scanS, scanStep, scanFill, scanVal, buildAnnual, buildAnnualGo,
    interpSeg, pyOrKey, round2, roundHalfEven, EXPECTED_CASHFLOW_YEARS, fallbackSeries,
    List.range']
  norm_num [Int.fract]
  decide

set_option maxRecDepth 8000 in
set_option maxHeartbeats 4000000 in
/-- Counterexample for C3 as literally stated over the rounded output: with
input `[{0, 0.001}, {5, 100}]` the checkpoint at year 0 is rounded to 0.0
while later checkpoints are 100, so "once a checkpoint value is 0, every
later checkpoint is 0" fails for the emitted (rounded) values. -/
theorem output_zero_not_monotone_cex :
    ¬ afterZeroAllZero
      (enforce_cashflow_horizon (.vList [mkPt 0 (1 / 1000), mkPt 5 100])) := by
  have heval : enforce_cashflow_horizon (.vList [mkPt 0 (1 / 1000), mkPt 5 100]) =
      [(0, 0), (5, 100), (10, 100), (15, 100), (20, 100), (25, 100)] := by
    norm_num [enforce_cashflow_horizon, normalizePoints, anchorPointMap, rawPointMap, pmSet,
      pmFind, keysOf, pyMinList, pyMaxList, sanitizeRecord_mkPt, List.filterMap, range26,
      max_def, scannedAnnual, scanS, scanStep, scanFill, scanVal, buildAnnual, buildAnnualGo,
      interpSeg, pyOrKey, round2, roundHalfEven, EXPECTED_CASHFLOW_YEARS, fallbackSeries,
      List.range']
    norm_num [Int.fract]
    decide
  rw [heval]
  unfold afterZeroAllZero
  decide

set_option maxRecDepth 8000 in
set_option maxHeartbeats 4000000 in
/-- Witness for C3 (amended) at the concrete input `[{0,100},{10,0}]`, year 10. -/
theorem depletion_monotone_from_unrounded_witness :
    (0 : ℤ) ≤ 10 ∧
    normalizeAnnual (.vList [mkPt 0 100, mkPt 10 0]) 10 = 0 ∧
    ∀ p ∈ enforce_cashflow_horizon (.vList [mkPt 0 100, mkPt 10 0]),
      10 ≤ p.1 → p.2 = 0 := by
  have hz : normalizeAnnual (.vList [mkPt 0 100, mkPt 10 0]) 10 = 0 := by
    norm_num [normalizeAnnual, normalizePoints, anchorPointMap, rawPointMap, pmSet,
      pmFind, keysOf, pyMinList, pyMaxList, sanitizeRecord_mkPt, List.filterMap, range26,
      max_def, scannedAnnual, scanS, scanStep, scanFill, scanVal, buildAnnual, buildAnnualGo,
      interpSeg, pyOrKey, List.range']
  exact ⟨by norm_num, hz, depletion_monotone_from_unrounded _ 10 (by norm_num) hz⟩

set_option maxRecDepth 8000 in
set_option maxHeartbeats 8000000 in
/-- Counterexample for C4 as literally stated: adding extra points at the
in-range off-grid years 1, 3, 7 (value 0 at year 3) alongside a valid
all-100 checkpoint series changes the output (depletion from year 3 zeroes
checkpoints 5..25), so in-range off-grid points are NOT ignored. The
out-of-range year 30 point alone is ignored. -/
theorem offgrid_points_not_ignored_cex :
    enforce_cashflow_horizon (.vList [mkPt 0 100, mkPt 5 100, mkPt 10 100, mkPt 15 100,
        mkPt 20 100, mkPt 25 100, mkPt 1 100, mkPt 3 0, mkPt 7 100, mkPt 30 100]) ≠
      enforce_cashflow_horizon (.vList [mkPt 0 100, mkPt 5 100, mkPt 10 100, mkPt 15 100,
        mkPt 20 100, mkPt 25 100]) := by
  have h1 : enforce_cashflow_horizon (.vList [mkPt 0 100, mkPt 5 100, mkPt 10 100,
      mkPt 15 100, mkPt 20 100, mkPt 25 100, mkPt 1 100, mkPt 3 0, mkPt 7 100,
      mkPt 30 100]) = [(0, 100), (5, 0), (10, 0), (15, 0), (20, 0), (25, 0)] := by
    norm_num [enforce_cashflow_horizon, normalizePoints, anchorPointMap, rawPointMap, pmSet,
      pmFind, keysOf, pyMinList, pyMaxList, sanitizeRecord_mkPt, List.filterMap, range26,
      max_def, scannedAnnual, scanS, scanStep, scanFill, scanVal, buildAnnual, buildAnnualGo,
      interpSeg, pyOrKey, round2, roundHalfEven, EXPECTED_CASHFLOW_YEARS, fallbackSeries,
      List.range']
    decide
  have h2 : enforce_cashflow_horizon (.vList [mkPt 0 100, mkPt 5 100, mkPt 10 100,
      mkPt 15 100, mkPt 20 100, mkPt 25 100]) =
      [(0, 100), (5, 100), (10, 100), (15, 100), (20, 100), (25, 100)] := by
    norm_num [enforce_cashflow_horizon, normalizePoints, anchorPointMap, rawPointMap, pmSet,
      pmFind, keysOf, pyMinList, pyMaxList, sanitizeRecord_mkPt, List.filterMap, range26,
      max_def, scannedAnnual, scanS, scanStep, scanFill, scanVal, buildAnnual, buildAnnualGo,
      interpSeg, pyOrKey, round2, roundHalfEven, EXPECTED_CASHFLOW_YEARS, fallbackSeries,
      List.range']
    decide
  rw [h1, h2]
  decide

/-- Witness for C5 at the concrete input `[{0,100},{10,-5},{25,999}]`:
year 10 is stored clamped to 0, so every checkpoint from year 10 on is 0
despite the later raw point claiming 999 at year 25. -/
theorem depletion_permanent_from_raw_witness :
    pmFind (rawPointMap (([mkPt 0 100, mkPt 10 (-5),
        mkPt 25 999]).filterMap sanitizeRecord)) 10 = some 0 ∧
    (0 : ℚ) ≤ 0 ∧
    ∀ p ∈ enforce_cashflow_horizon (.vList [mkPt 0 100, mkPt 10 (-5), mkPt 25 999]),
      10 ≤ p.1 → p.2 = 0 := by
  have hw : pmFind (rawPointMap (([mkPt 0 100, mkPt 10 (-5),
      mkPt 25 999]).filterMap sanitizeRecord)) 10 = some 0 := by
    norm_num [rawPointMap, pmSet, pmFind, sanitizeRecord_mkPt, List.filterMap, max_def]
  exact ⟨hw, le_refl 0, depletion_permanent_from_raw _ 10 0 hw (le_refl 0)⟩

/-- Witness for C8 at the concrete single-point input `[{0,50000}]`. -/
theorem single_point_flat_persistence_witness :
    pmFind (rawPointMap (([mkPt 0 50000]).filterMap sanitizeRecord)) 0 = some 50000 ∧
    (∀ k : Int, k ≠ 0 →
      pmFind (rawPointMap (([mkPt 0 50000]).filterMap sanitizeRecord)) k = none) ∧
    (0 : ℚ) < 50000 ∧
    enforce_cashflow_horizon (.vList [mkPt 0 50000]) =
      EXPECTED_CASHFLOW_YEARS.map (fun y => (y, round2 50000)) := by
  have hraw : rawPointMap (([mkPt 0 50000]).filterMap sanitizeRecord) =
      [((0 : ℤ), (50000 : ℚ))] := by
    norm_num [rawPointMap, pmSet, sanitizeRecord_mkPt, List.filterMap, max_def]
  have h0 : pmFind (rawPointMap (([mkPt 0 50000]).filterMap sanitizeRecord)) 0 =
      some 50000 := by
    rw [hraw]
    norm_num [pmFind]
  have hother : ∀ k : Int, k ≠ 0 →
      pmFind (rawPointMap (([mkPt 0 50000]).filterMap sanitizeRecord)) k = none := by
    intro k hk
    rw [hraw]
    simp [pmFind, (show ¬((0 : ℤ) = k) from fun e => hk e.symm)]
  exact ⟨h0, hother, by norm_num, single_point_flat_persistence _ _ h0 hother (by norm_num)⟩
